import Mathlib

/-!
Shallow embedding of the scheduling core of `main.go` (package main of the
ProcessScheduler repository) and proofs about it.

Conventions used throughout:

* Go `int64` values are modelled as `Int`.  All the quantities handled by the
  schedulers (times, bursts, ids) are small, so the two agree.
* The Go code accumulates `totalWait`, `totalTurnaround` and `lastCompletion`
  in `float64`.  Every value ever stored in them is an integer (a sum of
  `int64` values converted with `float64(...)`), and such conversions and sums
  are exact in `float64` for the magnitudes involved, so they are modelled as
  `Int`.  The final statistics are `float64` divisions; a division with a zero
  denominator yields NaN/Inf in Go and is modelled as `none : Option Rat`.
* `sort.Slice` is modelled by `sortSlice`, a transcription of the insertion
  sort the Go sort package uses for ranges of at most 12 elements.  For longer
  slices `sort.Slice` switches to an unstable quicksort, so the model and the
  library agree on the sorted keys and on the multiset of elements for every
  input, and agree element-for-element on slices of at most 12 processes.
* Runtime panics (out-of-range slice indexing) are modelled as explicit
  error results instead of Lean partiality.
-/

namespace ProcessScheduler

/-- Process mirrors the Go struct `Process` (fields `ProcessID`, `ArrivalTime`,
`BurstDuration`, `Priority`, all `int64`). -/
structure Process where
  processID : Int
  arrivalTime : Int
  burstDuration : Int
  priority : Int
deriving DecidableEq, Repr

/-- TimeSlice mirrors the Go struct `TimeSlice` (fields `PID`, `Start`,
`Stop`): one emitted execution interval of the Gantt chart. -/
structure TimeSlice where
  pid : Int
  start : Int
  stop : Int
deriving DecidableEq, Repr

/-- Row is one entry of the `schedule` table. The Go code stores the seven
cells as strings via `fmt.Sprint`; the numeric payload is kept here, in the
printed order: id, priority, burst, arrival, waiting, turnaround, completion. -/
structure Row where
  id : Int
  priority : Int
  burst : Int
  arrival : Int
  waiting : Int
  turnaround : Int
  completion : Int
deriving DecidableEq, Repr

/-- Summary holds the three statistics printed in the table footer.  `none`
models the NaN/Inf a `float64` division by zero produces. -/
structure Summary where
  aveWait : Option Rat
  aveTurnaround : Option Rat
  throughput : Option Rat
deriving DecidableEq, Repr

/-- fdiv models a Go `float64` division of two exact integer quantities:
`none` stands for the NaN/Inf produced when the denominator is zero. -/
def fdiv (a b : Int) : Option Rat :=
  if b = 0 then none else some ((a : Rat) / (b : Rat))

/-! ### The sort

`sort.Slice(processes, less)` sorts in place with the comparison closures of
the Go file, which always compare one integer key.  `goInsert` and `sortSlice`
transcribe the insertion sort of the Go sort package (`insertionSort`: bubble
the next element left while it is strictly `less` than its left neighbour),
which is what `sort.Slice` executes for ranges of at most 12 elements. -/

/-- goInsert inserts `x` into the already sorted list `l`: `x` ends up before
the first element whose key is strictly greater, exactly where the Go
insertion sort's swap loop deposits it. -/
def goInsert (k : Process → Int) (x : Process) : List Process → List Process
  | [] => [x]
  | e :: es => if k x < k e then x :: e :: es else e :: goInsert k x es

/-- sortSlice models `sort.Slice` with the comparison `k · < k ·`. -/
def sortSlice (k : Process → Int) (ps : List Process) : List Process :=
  ps.foldl (fun acc x => goInsert k x acc) []

/-! ### FCFS and SJF

`FCFSSchedule` iterates over the processes in the given order carrying
`serviceTime` and the latched `waitingTime`; `SJFSchedule` runs the identical
loop body over the slice sorted in place by burst duration. -/

/-- Accounting is the local state of the FCFS/SJF loop together with the
output accumulated so far (schedule rows in loop order, Gantt slices). -/
structure Accounting where
  serviceTime : Int
  waitingTime : Int
  totalWait : Int
  totalTurnaround : Int
  lastCompletion : Int
  rows : List Row
  gantt : List TimeSlice
deriving DecidableEq, Repr

/-- initAccounting collects the zero-valued variable declarations at the top
of `FCFSSchedule` and `SJFSchedule`. -/
def initAccounting : Accounting :=
  { serviceTime := 0, waitingTime := 0, totalWait := 0, totalTurnaround := 0,
    lastCompletion := 0, rows := [], gantt := [] }

/-- fcfsStep is one iteration of the loop body shared by `FCFSSchedule` and
`SJFSchedule`: `waitingTime` is reassigned only when `ArrivalTime > 0`
(otherwise the previous iteration's value is reused), and one schedule row and
one Gantt slice are emitted. -/
def fcfsStep (s : Accounting) (p : Process) : Accounting :=
  let waitingTime := if p.arrivalTime > 0 then s.serviceTime - p.arrivalTime else s.waitingTime
  let start := waitingTime + p.arrivalTime
  let turnaround := p.burstDuration + waitingTime
  let completion := p.burstDuration + p.arrivalTime + waitingTime
  let serviceTime := s.serviceTime + p.burstDuration
  { serviceTime := serviceTime
    waitingTime := waitingTime
    totalWait := s.totalWait + waitingTime
    totalTurnaround := s.totalTurnaround + turnaround
    lastCompletion := completion
    rows := s.rows ++ [⟨p.processID, p.priority, p.burstDuration, p.arrivalTime,
                        waitingTime, turnaround, completion⟩]
    gantt := s.gantt ++ [⟨p.processID, start, serviceTime⟩] }

/-- FCFSSchedule: the whole scheduling part of the Go function of the same
name (title rendering and table output are out of scope). -/
def FCFSSchedule (ps : List Process) : Accounting :=
  ps.foldl fcfsStep initAccounting

/-- SJFSchedule first sorts the slice in place by burst duration and then
runs the same loop as `FCFSSchedule` over the sorted slice. -/
def SJFSchedule (ps : List Process) : Accounting :=
  (sortSlice Process.burstDuration ps).foldl fcfsStep initAccounting

/-- SJFScheduleFinal is the content of the caller's slice after
`SJFSchedule` returns: `sort.Slice` reordered it in place. -/
def SJFScheduleFinal (ps : List Process) : List Process :=
  sortSlice Process.burstDuration ps

/-- summaryOf turns the accumulated totals into the three footer statistics,
per the `count := float64(len(processes))` epilogue of FCFS/SJF/SJFPriority. -/
def summaryOf (a : Accounting) (count : Int) : Summary :=
  { aveWait := fdiv a.totalWait count
    aveTurnaround := fdiv a.totalTurnaround count
    throughput := fdiv count a.lastCompletion }

/-- FCFSSummary: the statistics `FCFSSchedule` prints. -/
def FCFSSummary (ps : List Process) : Summary :=
  summaryOf (FCFSSchedule ps) ps.length

/-- SJFSummary: the statistics `SJFSchedule` prints. -/
def SJFSummary (ps : List Process) : Summary :=
  summaryOf (SJFSchedule ps) ps.length

/-- latchedWaitings is the specification-side description of the waiting-time
sequence (claim C4): the waiting time is recomputed as
`serviceTime - arrivalTime` only when `arrivalTime > 0`, and otherwise the
value carried over from the previous process (initially 0) is reused. -/
def latchedWaitings (serviceTime prevWaiting : Int) : List Process → List Int
  | [] => []
  | p :: ps =>
      let w := if p.arrivalTime > 0 then serviceTime - p.arrivalTime else prevWaiting
      w :: latchedWaitings (serviceTime + p.burstDuration) w ps

/-- burstSum is the total burst duration of a list of processes. -/
def burstSum (ps : List Process) : Int :=
  (ps.map Process.burstDuration).sum

/-! ### SJF priority

`SJFPrioritySchedule` sorts the slice by arrival time, then repeatedly scans
the not-yet-executed suffix (`lastExecuted` to the end, breaking at the first
entry whose arrival time is in the future) for the smallest burst duration.
The selected process runs to completion; its slot receives a copy of the
boundary slot (`processes[nextProcess] = processes[lastExecuted]`) and the
boundary advances.  When no scanned entry has arrived, `serviceTime` jumps to
`processes[lastExecuted].ArrivalTime`.

The embedding additionally records a ghost trace (`decisions`): one entry per
loop iteration, holding the pending suffix, the service time, and the scan's
outcome.  The trace does not influence the computation. -/

/-- SJFPDecision is one recorded iteration of the `SJFPrioritySchedule`
loop: either an idle jump of the service time, or the run of the pending
process at relative index `choice`. -/
inductive SJFPDecision where
  | idle (pending : List Process) (oldTime newTime : Int)
  | run (pending : List Process) (time : Int) (choice : Nat) (chosen : Process)
deriving DecidableEq, Repr

/-- isRun tells a run decision from an idle one. -/
def SJFPDecision.isRun : SJFPDecision → Bool
  | .idle _ _ _ => false
  | .run _ _ _ _ => true

/-- SJFPState is the loop state of `SJFPrioritySchedule`: the full slice with
the executed/pending boundary, the shared accounting variables, the schedule
table (written at the absolute index `nextProcess`), and the ghost outputs
`rows` (the sequence of table writes) and `decisions`. -/
structure SJFPState where
  procs : List Process
  lastExecuted : Nat
  serviceTime : Int
  waitingTime : Int
  totalWait : Int
  totalTurnaround : Int
  lastCompletion : Int
  sched : List (Option Row)
  rows : List Row
  gantt : List TimeSlice
  decisions : List SJFPDecision
deriving DecidableEq, Repr

/-- scanRel renders the selection loop of `SJFPrioritySchedule` on the
pending suffix: entries are scanned left to right while they have arrived
(`ArrivalTime ≤ serviceTime`; the first future entry breaks the scan), and
the first entry with the strictly smallest burst duration wins.  The result
is the winner's index relative to `lastExecuted`, together with the winner. -/
def scanRel (t : Int) : List Process → Option (Nat × Process)
  | [] => none
  | p :: ps =>
      if p.arrivalTime ≤ t then
        match scanRel t ps with
        | some (j, q) =>
            if q.burstDuration < p.burstDuration then some (j + 1, q) else some (0, p)
        | none => some (0, p)
      else none

/-- sjfpLoop is the main loop of `SJFPrioritySchedule`.  The fuel only bounds
the iteration count (the Go loop needs at most one idle step before each of
the `n` runs); the schedule entry point supplies enough fuel for every input. -/
def sjfpLoop : Nat → SJFPState → SJFPState
  | 0, st => st
  | fuel + 1, st =>
      if st.lastExecuted < st.procs.length then
        match st.procs.drop st.lastExecuted with
        | [] => st
        | p0 :: rest =>
            match scanRel st.serviceTime (p0 :: rest) with
            | none =>
                sjfpLoop fuel { st with
                  serviceTime := p0.arrivalTime,
                  decisions := st.decisions ++
                    [.idle (p0 :: rest) st.serviceTime p0.arrivalTime] }
            | some (r, p) =>
                let next := st.lastExecuted + r
                let waitingTime :=
                  if p.arrivalTime > 0 then st.serviceTime - p.arrivalTime else st.waitingTime
                let start := waitingTime + p.arrivalTime
                let turnaround := p.burstDuration + waitingTime
                let completion := p.burstDuration + p.arrivalTime + waitingTime
                let serviceTime := st.serviceTime + p.burstDuration
                let row : Row := ⟨p.processID, p.priority, p.burstDuration, p.arrivalTime,
                                  waitingTime, turnaround, completion⟩
                sjfpLoop fuel
                  { procs := st.procs.set next p0
                    lastExecuted := st.lastExecuted + 1
                    serviceTime := serviceTime
                    waitingTime := waitingTime
                    totalWait := st.totalWait + waitingTime
                    totalTurnaround := st.totalTurnaround + turnaround
                    lastCompletion := completion
                    sched := st.sched.set next (some row)
                    rows := st.rows ++ [row]
                    gantt := st.gantt ++ [⟨p.processID, start, serviceTime⟩]
                    decisions := st.decisions ++ [.run (p0 :: rest) st.serviceTime r p] }
      else st

/-- initSJFP is the state of `SJFPrioritySchedule` after the variable
declarations and the in-place sort by arrival time. -/
def initSJFP (ps : List Process) : SJFPState :=
  { procs := sortSlice Process.arrivalTime ps
    lastExecuted := 0, serviceTime := 0, waitingTime := 0
    totalWait := 0, totalTurnaround := 0, lastCompletion := 0
    sched := List.replicate ps.length none
    rows := [], gantt := [], decisions := [] }

/-- SJFPrioritySchedule: the scheduling part of the Go function of the same
name. -/
def SJFPrioritySchedule (ps : List Process) : SJFPState :=
  sjfpLoop (2 * ps.length + 1) (initSJFP ps)

/-- SJFPriorityScheduleFinal is the content of the caller's slice after
`SJFPrioritySchedule` returns: it was sorted in place and then had executed
slots overwritten with copies of the boundary slot. -/
def SJFPriorityScheduleFinal (ps : List Process) : List Process :=
  (SJFPrioritySchedule ps).procs

/-- SJFPSummary: the statistics `SJFPrioritySchedule` prints
(`count := float64(len(processes))` over the unchanged-length slice). -/
def SJFPSummary (ps : List Process) : Summary :=
  summaryOf
    { serviceTime := (SJFPrioritySchedule ps).serviceTime
      waitingTime := (SJFPrioritySchedule ps).waitingTime
      totalWait := (SJFPrioritySchedule ps).totalWait
      totalTurnaround := (SJFPrioritySchedule ps).totalTurnaround
      lastCompletion := (SJFPrioritySchedule ps).lastCompletion
      rows := (SJFPrioritySchedule ps).rows
      gantt := (SJFPrioritySchedule ps).gantt }
    (SJFPrioritySchedule ps).procs.length

/-! ### Round robin

`RRSchedule` sorts by arrival time and then loops: admit arrived processes to
the FIFO queue, dequeue the head, and run it in an inner loop `for burstLeft
> 0` — the inner loop only ends when the process is finished, emitting one
Gantt entry per time slice, each one keeping the dispatch time as its start.
Three runtime panics of the Go code are modelled as exits: reading `queue[0]`
when the queue is still empty after an idle jump, the write
`schedule[ProcessID-1]` with an out-of-range id, and reading
`gantt[len(gantt)-1]` when no interval was emitted.  The quantum is the
`timeSlice float64` parameter; it is only ever called with the integer 1, and
for integer quanta the `math.Min`/`int64` conversions are exact, so it is
modelled as `Int`.  A non-positive quantum makes the Go inner loop spin
forever; the embedding returns the `fuelOut` exit in that case. -/

/-- RRExit says how the round-robin run ended: normally, or in one of the
runtime panics of the Go code, or with the fuel exhausted (which only happens
when the Go loop diverges, i.e. with a non-positive quantum). -/
inductive RRExit where
  | ok
  | fuelOut
  | queueIndexPanic
  | scheduleIndexPanic (pid : Int)
  | ganttIndexPanic
deriving DecidableEq, Repr

/-- RRState is the loop state of `RRSchedule` plus the accumulated output.
`writes` is a ghost list of the writes into `sched` (index and row), in
execution order. -/
structure RRState where
  procs : List Process
  queue : List Process
  currentTime : Int
  totalWait : Int
  totalTurnaround : Int
  sched : List (Option Row)
  writes : List (Nat × Row)
  gantt : List TimeSlice
  exit : RRExit
deriving DecidableEq, Repr

/-- rrAdmit is the admission loop: move processes from the head of the
sorted remainder to the back of the queue while their arrival time has been
reached. -/
def rrAdmit (t : Int) : List Process → List Process → List Process × List Process
  | p :: ps, queue =>
      if p.arrivalTime ≤ t then rrAdmit t ps (queue ++ [p]) else (p :: ps, queue)
  | [], queue => ([], queue)

/-- RRInnerOut is what the inner (`for burstLeft > 0`) loop of `RRSchedule`
returns: the updated remainder/queue (admission also runs inside the inner
loop), the clock, the last completion, the elapsed time, the grown Gantt
chart, and whether the loop terminated within the supplied fuel. -/
structure RRInnerOut where
  procs : List Process
  queue : List Process
  currentTime : Int
  completion : Int
  timeElapsed : Int
  gantt : List TimeSlice
  fuelOK : Bool
deriving DecidableEq, Repr

/-- rrInner runs the dispatched process: while `burstLeft > 0`, spend
`min(burstLeft, q)` time, append a Gantt slice keeping the dispatch `start`,
and admit newly arrived processes.  The fuel `burstLeft.toNat` supplied by
the caller is enough whenever `1 ≤ q`; with a non-positive quantum the Go
loop never ends and the fuel runs out (`fuelOK = false`). -/
def rrInner (q pid start : Int) :
    Nat → Int → List Process → List Process → Int → Int → Int → List TimeSlice → RRInnerOut
  | fuel, burstLeft, procs, queue, t, completion, timeElapsed, gantt =>
      if burstLeft > 0 then
        match fuel with
        | 0 => ⟨procs, queue, t, completion, timeElapsed, gantt, false⟩
        | fuel + 1 =>
            let timeSpent := min burstLeft q
            let completion2 := t + timeSpent
            let timeElapsed2 := timeElapsed + timeSpent
            let burstLeft2 := burstLeft - timeSpent
            let gantt2 := gantt ++ [⟨pid, start, completion2⟩]
            let pq := rrAdmit completion2 procs queue
            rrInner q pid start fuel burstLeft2 pq.1 pq.2 completion2 completion2 timeElapsed2 gantt2
      else ⟨procs, queue, t, completion, timeElapsed, gantt, true⟩

/-- rrLoop is the outer loop of `RRSchedule`, one fuel unit per iteration;
each iteration dequeues one process (or panics), so `n + 1` fuel covers every
terminating run. -/
def rrLoop (q : Int) : Nat → RRState → RRState
  | 0, st => if st.queue = [] ∧ st.procs = [] then st else { st with exit := .fuelOut }
  | fuel + 1, st =>
      if st.queue = [] ∧ st.procs = [] then st
      else
        let pq := rrAdmit st.currentTime st.procs st.queue
        match pq.2 with
        | [] =>
            let t2 := match pq.1 with | p :: _ => p.arrivalTime | [] => st.currentTime
            { st with procs := pq.1, currentTime := t2, exit := .queueIndexPanic }
        | p :: queue2 =>
            let inner := rrInner q p.processID st.currentTime p.burstDuration.toNat
                p.burstDuration pq.1 queue2 st.currentTime 0 0 st.gantt
            if inner.fuelOK then
              let waitingTime := inner.currentTime - p.arrivalTime - p.burstDuration
              let turnaround := waitingTime + p.burstDuration + inner.timeElapsed
              let row : Row := ⟨p.processID, p.priority, p.burstDuration, p.arrivalTime,
                                waitingTime, turnaround, inner.completion⟩
              let idx := p.processID - 1
              if 0 ≤ idx ∧ idx.toNat < st.sched.length then
                rrLoop q fuel
                  { procs := inner.procs
                    queue := inner.queue
                    currentTime := inner.currentTime
                    totalWait := st.totalWait + waitingTime
                    totalTurnaround := st.totalTurnaround + turnaround
                    sched := st.sched.set idx.toNat (some row)
                    writes := st.writes ++ [(idx.toNat, row)]
                    gantt := inner.gantt
                    exit := st.exit }
              else
                { st with procs := inner.procs, queue := inner.queue,
                          currentTime := inner.currentTime,
                          totalWait := st.totalWait + waitingTime,
                          totalTurnaround := st.totalTurnaround + turnaround,
                          gantt := inner.gantt,
                          exit := .scheduleIndexPanic p.processID }
            else
              { st with procs := inner.procs, queue := inner.queue,
                        currentTime := inner.currentTime, gantt := inner.gantt,
                        exit := .fuelOut }

/-- initRR is the state of `RRSchedule` after the variable declarations and
the in-place sort by arrival time. -/
def initRR (ps : List Process) : RRState :=
  { procs := sortSlice Process.arrivalTime ps, queue := [], currentTime := 0,
    totalWait := 0, totalTurnaround := 0,
    sched := List.replicate ps.length none, writes := [], gantt := [], exit := .ok }

/-- RRSchedule: the scheduling part of the Go function of the same name.
After a normal loop exit the Go code reads `gantt[len(gantt)-1].Stop` for the
throughput, which panics when no interval was emitted. -/
def RRSchedule (ps : List Process) (q : Int) : RRState :=
  let st := rrLoop q (ps.length + 1) (initRR ps)
  if st.exit = .ok ∧ st.gantt = [] then { st with exit := .ganttIndexPanic } else st

/-! ### Concrete inputs used by the evaluations below -/

/-- exPreempt: two processes (id 1: burst 2, arrival 0; id 2: burst 1,
arrival 1); with quantum 1, proper round robin would preempt process 1. -/
def exPreempt : List Process := [⟨1, 0, 2, 1⟩, ⟨2, 1, 1, 1⟩]

/-- exTurnaround: a single process with burst 1 arriving at 0. -/
def exTurnaround : List Process := [⟨1, 0, 1, 1⟩]

/-- exOverlap: two processes arriving at 0 with bursts 5 and 3. -/
def exOverlap : List Process := [⟨1, 0, 5, 1⟩, ⟨2, 0, 3, 1⟩]

/-- exLateArrival: a single process arriving at time 5. -/
def exLateArrival : List Process := [⟨1, 5, 2, 1⟩]

/-- exShared: two processes arriving at 0 with bursts 5 and 1. -/
def exShared : List Process := [⟨1, 0, 5, 1⟩, ⟨2, 0, 1, 1⟩]

/-- exBadID: a single process whose id 5 is outside the dense range 1..1. -/
def exBadID : List Process := [⟨5, 0, 1, 1⟩]

/-! ### Lemmas about the selection scan -/

/-! ### The reachability invariant of the pending suffix (claim C5)

The scan breaks at the first pending entry that has not arrived, and the
boundary swap moves `processes[lastExecuted]` to a later slot, so the pending
suffix is no longer sorted by arrival after a swap.  What survives is:
whenever a pending entry has not yet arrived, every later pending entry has
an arrival time at least as large.  The initial sort establishes this, swaps
preserve it because only already-arrived processes are moved, and it makes
the break harmless. -/

/-- ArrInv is that invariant, as a `Pairwise` statement over the pending
suffix at service time `t`. -/
def ArrInv (t : Int) (l : List Process) : Prop :=
  l.Pairwise (fun x y => t < x.arrivalTime → x.arrivalTime ≤ y.arrivalTime)

/-- SJFPGood is what claim C5 asserts of one recorded decision point.  For an
idle decision: some process is pending, none has arrived, and the service
time jumps exactly to the earliest pending arrival (no interval is emitted —
that is the Gantt-length equation of the claim theorem).  For a run decision:
the chosen process is the pending entry at the chosen index, it has arrived,
its burst is minimal among all arrived pending entries, earlier arrived
entries have strictly larger bursts (first occurrence wins ties), and no
arrived pending entry has both strictly earlier arrival and strictly smaller
burst. -/
def SJFPGood : SJFPDecision → Prop
  | .idle pending t t' =>
      pending ≠ [] ∧ (∀ p ∈ pending, t < p.arrivalTime) ∧
      (∀ p ∈ pending, t' ≤ p.arrivalTime) ∧ (∃ p ∈ pending, p.arrivalTime = t')
  | .run pending t r c =>
      ∃ hr : r < pending.length,
        pending.get ⟨r, hr⟩ = c ∧ c.arrivalTime ≤ t ∧
        ∀ j (hj : j < pending.length), (pending.get ⟨j, hj⟩).arrivalTime ≤ t →
          c.burstDuration ≤ (pending.get ⟨j, hj⟩).burstDuration ∧
          (j < r → c.burstDuration < (pending.get ⟨j, hj⟩).burstDuration) ∧
          ¬((pending.get ⟨j, hj⟩).arrivalTime < c.arrivalTime ∧
            (pending.get ⟨j, hj⟩).burstDuration < c.burstDuration)

/-- SJFPInv is the inductive invariant of the `SJFPrioritySchedule` loop:
the pending suffix satisfies `ArrInv`, pending bursts are non-negative, all
recorded decisions are good, and every Gantt interval belongs to a run
decision. -/
def SJFPInv (st : SJFPState) : Prop :=
  ArrInv st.serviceTime (st.procs.drop st.lastExecuted) ∧
  (∀ p ∈ st.procs.drop st.lastExecuted, 0 ≤ p.burstDuration) ∧
  (∀ d ∈ st.decisions, SJFPGood d) ∧
  st.gantt.length = st.decisions.countP SJFPDecision.isRun

/-! ### Lemmas about the round-robin loop -/

/-! ### Theorems -/

theorem mem_goInsert {k : Process → Int} {x y : Process} {l : List Process} :
    y ∈ goInsert k x l ↔ y = x ∨ y ∈ l := by
  induction l with
  | nil => simp [goInsert]
  | cons e es ih =>
      by_cases h : k x < k e
      · simp [goInsert, h]
      · simp [goInsert, h, ih]
        tauto

theorem goInsert_perm (k : Process → Int) (x : Process) (l : List Process) :
    (goInsert k x l).Perm (x :: l) := by
  induction l with
  | nil => simp [goInsert]
  | cons e es ih =>
      by_cases h : k x < k e
      · simp [goInsert, h]
      · simp only [goInsert, h, if_false]
        exact (ih.cons e).trans (List.Perm.swap x e es)

theorem goInsert_sorted {k : Process → Int} {l : List Process}
    (hl : l.Pairwise (fun a b => k a ≤ k b)) (x : Process) :
    (goInsert k x l).Pairwise (fun a b => k a ≤ k b) := by
  induction l with
  | nil => simp [goInsert]
  | cons e es ih =>
      rcases List.pairwise_cons.mp hl with ⟨he, hes⟩
      by_cases h : k x < k e
      · rw [goInsert, if_pos h]
        refine List.pairwise_cons.mpr ⟨?_, hl⟩
        intro y hy
        rcases List.mem_cons.mp hy with rfl | hy
        · exact le_of_lt h
        · exact le_trans (le_of_lt h) (he y hy)
      · rw [goInsert, if_neg h]
        refine List.pairwise_cons.mpr ⟨?_, ih hes⟩
        intro y hy
        rcases mem_goInsert.mp hy with rfl | hy
        · omega
        · exact he y hy

theorem sortSlice_aux_perm (k : Process → Int) (ps acc : List Process) :
    (ps.foldl (fun acc x => goInsert k x acc) acc).Perm (acc ++ ps) := by
  induction ps generalizing acc with
  | nil => simp
  | cons p ps ih =>
      simp only [List.foldl_cons]
      refine (ih (goInsert k p acc)).trans ?_
      have h1 : (goInsert k p acc ++ ps).Perm ((p :: acc) ++ ps) :=
        (goInsert_perm k p acc).append_right ps
      refine h1.trans ?_
      simpa using (@List.perm_middle _ p acc ps).symm

theorem sortSlice_perm (k : Process → Int) (ps : List Process) :
    (sortSlice k ps).Perm ps := by
  simpa [sortSlice] using sortSlice_aux_perm k ps []

theorem sortSlice_aux_sorted (k : Process → Int) (ps : List Process)
    (acc : List Process) (hacc : acc.Pairwise (fun a b => k a ≤ k b)) :
    (ps.foldl (fun acc x => goInsert k x acc) acc).Pairwise (fun a b => k a ≤ k b) := by
  induction ps generalizing acc with
  | nil => simpa
  | cons p ps ih => exact ih _ (goInsert_sorted hacc p)

theorem sortSlice_sorted (k : Process → Int) (ps : List Process) :
    (sortSlice k ps).Pairwise (fun a b => k a ≤ k b) :=
  sortSlice_aux_sorted k ps [] (by simp)

theorem mem_sortSlice {k : Process → Int} {ps : List Process} {p : Process} :
    p ∈ sortSlice k ps ↔ p ∈ ps :=
  (sortSlice_perm k ps).mem_iff

theorem fcfs_rows_waiting_aux (ps : List Process) (s : Accounting) :
    ((ps.foldl fcfsStep s).rows).map Row.waiting =
      s.rows.map Row.waiting ++ latchedWaitings s.serviceTime s.waitingTime ps := by
  induction ps generalizing s with
  | nil => simp [latchedWaitings]
  | cons p ps ih =>
      simp only [List.foldl_cons, latchedWaitings]
      rw [ih]
      simp [fcfsStep]

theorem fcfs_rows_nonneg_aux (ps : List Process) (s : Accounting)
    (harr : ∀ i, (hi : i < ps.length) →
      (ps.get ⟨i, hi⟩).arrivalTime ≤ s.serviceTime + burstSum (ps.take i))
    (hw : 0 ≤ s.waitingTime) (hrows : ∀ r ∈ s.rows, 0 ≤ r.waiting) :
    ∀ r ∈ (ps.foldl fcfsStep s).rows, 0 ≤ r.waiting := by
  induction ps generalizing s with
  | nil => simpa using hrows
  | cons p ps ih =>
      simp only [List.foldl_cons]
      have hp0 : p.arrivalTime ≤ s.serviceTime := by
        have := harr 0 (by simp)
        simpa [burstSum] using this
      have hw' : 0 ≤ (if p.arrivalTime > 0 then s.serviceTime - p.arrivalTime else s.waitingTime) := by
        by_cases h : p.arrivalTime > 0 <;> simp [h] <;> omega
      refine ih (fcfsStep s p) ?_ ?_ ?_
      · intro i hi
        have := harr (i + 1) (by simpa using Nat.succ_lt_succ hi)
        simp only [List.get_cons_succ] at this
        simp only [fcfsStep]
        have htake : burstSum (List.take (i + 1) (p :: ps)) =
            p.burstDuration + burstSum (List.take i ps) := by
          simp [burstSum]
        omega
      · simpa [fcfsStep] using hw'
      · intro r hr
        simp only [fcfsStep, List.mem_append, List.mem_singleton] at hr
        rcases hr with hr | rfl
        · exact hrows r hr
        · simpa using hw'

/-- C1: the claim says a dispatched process whose remaining burst exceeds the
quantum runs for exactly the quantum, is preempted and is re-queued behind
newly arrived processes, so that no interval's duration exceeds the quantum
except a final short slice.  The code's inner loop instead runs the
dispatched process to completion (`for burstLeft > 0`), so on `exPreempt`
with quantum 1 process 1 runs its whole burst of 2 without being preempted
by process 2, and the emitted slice (1, 0, 2) has duration 2 > 1. -/
theorem rr_no_preemption_eval :
    (RRSchedule exPreempt 1).gantt =
      [⟨1, 0, 1⟩, ⟨1, 0, 2⟩, ⟨2, 2, 3⟩] ∧
    ∃ s ∈ (RRSchedule exPreempt 1).gantt, 1 < s.stop - s.start := by
  decide

/-- C2: the claim says every emitted row satisfies
`turnaround = waiting + burst` and `completion = arrival + waiting + burst`.
`RRSchedule` computes `turnaround = waiting + burst + timeElapsed` and
`timeElapsed` always equals the full burst, so on `exTurnaround` with
quantum 1 the row has waiting 0, burst 1 but turnaround 2. -/
theorem rr_turnaround_eval :
    (RRSchedule exTurnaround 1).writes = [(0, ⟨1, 1, 1, 0, 0, 2, 1⟩)] ∧
    ∃ w ∈ (RRSchedule exTurnaround 1).writes,
      w.2.turnaround ≠ w.2.waiting + w.2.burst := by
  decide

/-- C3: the claim says the intervals of every policy are non-overlapping and
that each pid's total interval duration equals its burst.  `FCFSSchedule` on
`exOverlap` (both arrivals 0, so the waiting time stays latched at 0) emits
(1, 0, 5) and (2, 0, 8): the two intervals overlap, and pid 2's only
interval has duration 8 while its burst is 3. -/
theorem fcfs_interval_overlap_eval :
    (FCFSSchedule exOverlap).gantt = [⟨1, 0, 5⟩, ⟨2, 0, 8⟩] ∧
    (∃ s1 ∈ (FCFSSchedule exOverlap).gantt, ∃ s2 ∈ (FCFSSchedule exOverlap).gantt,
        s1.pid ≠ s2.pid ∧ s1.start < s2.stop ∧ s2.start < s1.stop) ∧
    (∃ p ∈ exOverlap, p.processID = 2 ∧ p.burstDuration = 3) ∧
    (∃ s ∈ (FCFSSchedule exOverlap).gantt, s.pid = 2 ∧ s.stop - s.start ≠ 3) := by
  decide

/-- C6 counterexample: the claim says all four policies complete on the empty
list with zero (not NaN) averages and throughput.  In the code the FCFS
averages are 0/0 float divisions (modelled `none`), and `RRSchedule` does not
complete: it panics reading `gantt[len(gantt)-1]`. -/
theorem empty_input_counterexample :
    (FCFSSummary []).aveWait = none ∧
    (RRSchedule [] 1).exit = RRExit.ganttIndexPanic := by
  decide

/-- C6 amended: on the empty list FCFS, SJF and SJFPriority complete with
empty rows and intervals but all three statistics are 0/0 divisions (NaN,
modelled `none`), and RRSchedule panics indexing the empty Gantt chart. -/
theorem empty_input_behavior :
    (FCFSSchedule []).rows = [] ∧ (FCFSSchedule []).gantt = [] ∧
    FCFSSummary [] = ⟨none, none, none⟩ ∧
    (SJFSchedule []).rows = [] ∧ (SJFSchedule []).gantt = [] ∧
    SJFSummary [] = ⟨none, none, none⟩ ∧
    (SJFPrioritySchedule []).rows = [] ∧ (SJFPrioritySchedule []).gantt = [] ∧
    SJFPSummary [] = ⟨none, none, none⟩ ∧
    (RRSchedule [] 1).writes = [] ∧ (RRSchedule [] 1).gantt = [] ∧
    (RRSchedule [] 1).exit = RRExit.ganttIndexPanic := by
  decide

/-- C7 counterexample: the claim says every row has a non-negative waiting
time and that FCFS computes `max(0, serviceTime - arrivalTime)`.  There is no
clamping in the code: on `exLateArrival` (one process arriving at 5) FCFS
computes waiting time 0 - 5 = -5. -/
theorem fcfs_negative_waiting_counterexample :
    (FCFSSchedule exLateArrival).rows.map Row.waiting = [-5] ∧
    ∃ r ∈ (FCFSSchedule exLateArrival).rows,
      r.waiting < 0 ∧ r.waiting ≠ max 0 r.waiting := by
  decide

/-- C8 counterexample: the claim says running any policy leaves the caller's
process list unchanged.  `SJFSchedule` sorts the caller's slice in place: on
`exShared` the slice afterwards is reordered. -/
theorem shared_slice_counterexample : SJFScheduleFinal exShared ≠ exShared := by
  decide

/-- C8 amended: the four policy calls in `main` share one slice.
`SJFSchedule` reorders it in place; `SJFPrioritySchedule` reorders it and
overwrites executed slots with the boundary slot, so afterwards the slice
([process 1, process 1] here) is not even a permutation of the input; and
`RRSchedule`, receiving in `main` the slice as left by the earlier policies,
produces different output than it would on the loaded list. -/
theorem shared_slice_mutation :
    SJFScheduleFinal exShared = [⟨2, 0, 1, 1⟩, ⟨1, 0, 5, 1⟩] ∧
    SJFPriorityScheduleFinal exShared = [⟨1, 0, 5, 1⟩, ⟨1, 0, 5, 1⟩] ∧
    (RRSchedule (SJFPriorityScheduleFinal (SJFScheduleFinal exShared)) 1).writes ≠
      (RRSchedule exShared 1).writes := by
  decide

/-- C4: in `FCFSSchedule` and `SJFSchedule` the waiting time is recomputed
as `serviceTime - arrivalTime` only for a process with `arrivalTime > 0`; a
process with `arrivalTime = 0` receives the waiting time carried over from
the previously processed process (0 for the first).  The emitted waiting
times coincide with `latchedWaitings`, the direct recursion of that rule
(over the burst-sorted order in the SJF case). -/
theorem latched_waiting_characterization (ps : List Process) :
    (FCFSSchedule ps).rows.map Row.waiting = latchedWaitings 0 0 ps ∧
    (SJFSchedule ps).rows.map Row.waiting =
      latchedWaitings 0 0 (sortSlice Process.burstDuration ps) := by
  constructor
  · simpa [FCFSSchedule, initAccounting] using fcfs_rows_waiting_aux ps initAccounting
  · simpa [SJFSchedule, initAccounting] using
      fcfs_rows_waiting_aux (sortSlice Process.burstDuration ps) initAccounting

theorem scanRel_cons_arrived_isSome {t : Int} {p : Process} (ps : List Process)
    (h : p.arrivalTime ≤ t) : (scanRel t (p :: ps)).isSome := by
  rw [scanRel, if_pos h]
  cases hsub : scanRel t ps with
  | none => simp
  | some jq =>
      obtain ⟨j, q⟩ := jq
      by_cases hb : q.burstDuration < p.burstDuration <;> simp [hb]

theorem scanRel_some_head_arrived {t : Int} {p : Process} {ps : List Process}
    {r : Nat} {c : Process} (h : scanRel t (p :: ps) = some (r, c)) :
    p.arrivalTime ≤ t := by
  by_contra ha
  rw [scanRel, if_neg ha] at h
  exact Option.noConfusion h

/-- scanRel_spec: the scan returns an index `r` within the list whose entry
is the winner `c`; every entry up to `r` has arrived; the winner's burst is
minimal among the entries of every arrived prefix; and entries strictly
before `r` have strictly larger bursts (the scan keeps the first minimum). -/
theorem scanRel_spec {t : Int} {l : List Process} {r : Nat} {c : Process}
    (h : scanRel t l = some (r, c)) :
    ∃ hr : r < l.length,
      l.get ⟨r, hr⟩ = c ∧
      (∀ j (hj : j < l.length), j ≤ r → (l.get ⟨j, hj⟩).arrivalTime ≤ t) ∧
      (∀ j (hj : j < l.length),
          (∀ k (hk : k < l.length), k ≤ j → (l.get ⟨k, hk⟩).arrivalTime ≤ t) →
          c.burstDuration ≤ (l.get ⟨j, hj⟩).burstDuration) ∧
      (∀ j (hj : j < l.length), j < r → c.burstDuration < (l.get ⟨j, hj⟩).burstDuration) := by
  induction l generalizing r c with
  | nil => exact absurd h (by simp [scanRel])
  | cons a as ih =>
      have ha : a.arrivalTime ≤ t := scanRel_some_head_arrived h
      cases hsub : scanRel t as with
      | none =>
          have heq : scanRel t (a :: as) = some (0, a) := by
            rw [scanRel, if_pos ha, hsub]
          rw [heq] at h
          obtain ⟨rfl, rfl⟩ : 0 = r ∧ a = c := by
            have h2 := Option.some.inj h
            simpa [Prod.ext_iff] using h2
          refine ⟨by simp, by simp, ?_, ?_, ?_⟩
          · intro j hj hjr
            obtain rfl : j = 0 := Nat.le_zero.mp hjr
            simpa using ha
          · intro j hj hpre
            cases j with
            | zero => simp
            | succ j =>
                exfalso
                cases as with
                | nil => simp at hj
                | cons b bs =>
                    have hb : b.arrivalTime ≤ t := by
                      have := hpre 1 (by simp) (by omega)
                      simpa using this
                    have := scanRel_cons_arrived_isSome bs hb
                    rw [hsub] at this
                    simp at this
          · intro j hj hjr
            omega
      | some jq =>
          obtain ⟨j0, q⟩ := jq
          obtain ⟨hj0, hq, hpreq, hminq, hfirstq⟩ := ih hsub
          by_cases hb : q.burstDuration < a.burstDuration
          · have heq : scanRel t (a :: as) = some (j0 + 1, q) := by
              rw [scanRel, if_pos ha, hsub]
              simp [hb]
            rw [heq] at h
            obtain ⟨rfl, rfl⟩ : j0 + 1 = r ∧ q = c := by
              have h2 := Option.some.inj h
              simpa [Prod.ext_iff] using h2
            refine ⟨by simpa using Nat.succ_lt_succ hj0, by simpa using hq, ?_, ?_, ?_⟩
            · intro j hj hjr
              cases j with
              | zero => simpa using ha
              | succ j => exact hpreq j (by simpa using Nat.lt_of_succ_lt_succ hj) (by omega)
            · intro j hj hpre
              cases j with
              | zero => simpa using le_of_lt hb
              | succ j =>
                  refine hminq j (by simpa using Nat.lt_of_succ_lt_succ hj) ?_
                  intro k hk hkj
                  have := hpre (k + 1) (by simpa using Nat.succ_lt_succ hk) (by omega)
                  simpa using this
            · intro j hj hjr
              cases j with
              | zero => simpa using hb
              | succ j => exact hfirstq j (by simpa using Nat.lt_of_succ_lt_succ hj) (by omega)
          · have heq : scanRel t (a :: as) = some (0, a) := by
              rw [scanRel, if_pos ha, hsub]
              simp [hb]
            rw [heq] at h
            obtain ⟨rfl, rfl⟩ : 0 = r ∧ a = c := by
              have h2 := Option.some.inj h
              simpa [Prod.ext_iff] using h2
            refine ⟨by simp, by simp, ?_, ?_, ?_⟩
            · intro j hj hjr
              obtain rfl : j = 0 := Nat.le_zero.mp hjr
              simpa using ha
            · intro j hj hpre
              cases j with
              | zero => simp
              | succ j =>
                  have h1 : a.burstDuration ≤ q.burstDuration := by omega
                  refine le_trans h1 (hminq j (by simpa using Nat.lt_of_succ_lt_succ hj) ?_)
                  intro k hk hkj
                  have := hpre (k + 1) (by simpa using Nat.succ_lt_succ hk) (by omega)
                  simpa using this
            · intro j hj hjr
              omega

theorem ArrInv.of_sorted {l : List Process}
    (h : l.Pairwise (fun a b => a.arrivalTime ≤ b.arrivalTime)) (t : Int) : ArrInv t l := by
  unfold ArrInv
  refine h.imp ?_
  intro a b hab _
  exact hab

theorem ArrInv.mono {t t' : Int} {l : List Process} (htt : t ≤ t') (h : ArrInv t l) :
    ArrInv t' l := by
  unfold ArrInv at h ⊢
  exact h.imp fun hxy hx => hxy (lt_of_le_of_lt htt hx)

/-- prefix_arrived: under the invariant, the entries up to any arrived entry
have all arrived, so the scan's break loses no eligible process. -/
theorem ArrInv.prefix_arrived {t : Int} {l : List Process} (h : ArrInv t l)
    {j : Nat} (hj : j < l.length) (hja : (l.get ⟨j, hj⟩).arrivalTime ≤ t) :
    ∀ k (hk : k < l.length), k ≤ j → (l.get ⟨k, hk⟩).arrivalTime ≤ t := by
  intro k hk hkj
  rcases Nat.lt_or_ge k j with hlt | hge
  · by_contra hc
    push_neg at hc
    have := (List.pairwise_iff_get.mp h) ⟨k, hk⟩ ⟨j, hj⟩ hlt hc
    omega
  · have hkj' : k = j := le_antisymm hkj hge
    subst hkj'
    exact hja

theorem drop_set_add {α : Type} (l : List α) (n i : Nat) (a : α) :
    (l.set (n + i) a).drop n = (l.drop n).set i a := by
  induction n generalizing l with
  | zero => simp
  | succ n ihn =>
      cases l with
      | nil => simp
      | cons x xs =>
          rw [show n + 1 + i = (n + i) + 1 by omega, List.set_cons_succ,
            List.drop_succ_cons, List.drop_succ_cons]
          exact ihn xs

/-- ArrInv.step: executing the scan's winner preserves the invariant on the
new pending suffix (the tail of the old one with the boundary process copied
into the winner's slot), at the advanced service time. -/
theorem ArrInv.step {t b : Int} {p0 : Process} {rest : List Process} {r : Nat} {c : Process}
    (hscan : scanRel t (p0 :: rest) = some (r, c))
    (hinv : ArrInv t (p0 :: rest)) (hb : 0 ≤ b) :
    ArrInv (t + b) (((p0 :: rest).set r p0).drop 1) := by
  obtain ⟨hr, hget, hpre, hmin, hfirst⟩ := scanRel_spec hscan
  have htt : t ≤ t + b := by omega
  have hrest : ArrInv t rest := (List.pairwise_cons.mp hinv).2
  cases r with
  | zero =>
      rw [List.set_cons_zero, List.drop_one, List.tail_cons]
      exact hrest.mono htt
  | succ k =>
      have hk : k < rest.length := by
        have := hr
        simp only [List.length_cons] at this
        omega
      rw [List.set_cons_succ, List.drop_one, List.tail_cons,
        List.set_eq_take_cons_drop p0 hk]
      have harrived_take : ∀ x ∈ rest.take k, x.arrivalTime ≤ t := by
        intro x hx
        obtain ⟨⟨i, hi⟩, hxi⟩ := List.mem_iff_get.mp hx
        have hik : i < k := by
          simpa using lt_of_lt_of_le hi (by simp [List.length_take])
        have hi' : i < rest.length := lt_trans hik hk
        have hgt : (rest.take k).get ⟨i, hi⟩ = rest.get ⟨i, hi'⟩ :=
          (List.get_take rest hi' hik).symm
        have hidx : i + 1 < (p0 :: rest).length := by simp; omega
        have := hpre (i + 1) hidx (by omega)
        simp only [List.get_cons_succ] at this
        rw [← hxi, hgt]
        exact this
      have hp0 : p0.arrivalTime ≤ t := by
        have := hpre 0 (by simp) (by omega)
        simpa using this
      unfold ArrInv
      rw [List.pairwise_append]
      refine ⟨?_, ?_, ?_⟩
      · refine List.pairwise_iff_get.mpr ?_
        intro i j hij hx
        have hmem : (rest.take k).get i ∈ rest.take k := List.get_mem _ _ _
        have := harrived_take _ hmem
        omega
      · refine List.pairwise_cons.mpr ⟨?_, ?_⟩
        · intro y _ hp0arr
          omega
        · exact (List.Pairwise.sublist (List.drop_sublist (k + 1) rest) hrest).imp
            (fun hxy hx => hxy (lt_of_le_of_lt htt hx))
      · intro x hx y _ hxarr
        have := harrived_take x hx
        omega

theorem scanRel_none_head {t : Int} {p : Process} {ps : List Process}
    (h : scanRel t (p :: ps) = none) : t < p.arrivalTime := by
  by_contra hc
  push_neg at hc
  have hs := scanRel_cons_arrived_isSome ps hc
  rw [h] at hs
  simp at hs

theorem sjfpLoop_inv (fuel : Nat) (st : SJFPState) (h : SJFPInv st) :
    SJFPInv (sjfpLoop fuel st) := by
  induction fuel generalizing st with
  | zero => simpa [sjfpLoop] using h
  | succ fuel ih =>
      obtain ⟨hinv, hb, hgood, hcount⟩ := h
      rw [sjfpLoop]
      split
      · split
        · exact ⟨hinv, hb, hgood, hcount⟩
        · rename_i hlt p0 rest hpend
          rw [hpend] at hinv hb
          split
          · rename_i hscan
            apply ih
            have ht : st.serviceTime ≤ p0.arrivalTime := le_of_lt (scanRel_none_head hscan)
            refine ⟨?_, ?_, ?_, ?_⟩
            · simpa [hpend] using hinv.mono ht
            · simpa [hpend] using hb
            · intro d hd
              simp only [List.mem_append, List.mem_singleton] at hd
              rcases hd with hd | rfl
              · exact hgood d hd
              · refine ⟨by simp, ?_, ?_, ⟨p0, by simp⟩⟩
                · intro p hp
                  rcases List.mem_cons.mp hp with rfl | hp
                  · exact scanRel_none_head hscan
                  · have hp0y := (List.pairwise_cons.mp hinv).1 p hp
                    have := hp0y (scanRel_none_head hscan)
                    have := scanRel_none_head hscan
                    omega
                · intro p hp
                  rcases List.mem_cons.mp hp with rfl | hp
                  · exact le_refl _
                  · exact (List.pairwise_cons.mp hinv).1 p hp (scanRel_none_head hscan)
            · simpa [SJFPDecision.isRun] using hcount
          · rename_i rp r c hscan
            apply ih
            obtain ⟨hr, hget, hpre, hmin, hfirst⟩ := scanRel_spec hscan
            have hcmem : c ∈ p0 :: rest := hget ▸ List.get_mem _ _ _
            have hcb : 0 ≤ c.burstDuration := hb c hcmem
            have hpend2 : (st.procs.set (st.lastExecuted + r) p0).drop (st.lastExecuted + 1) =
                ((p0 :: rest).set r p0).drop 1 := by
              rw [← List.drop_drop, drop_set_add, hpend]
            refine ⟨?_, ?_, ?_, ?_⟩
            · simpa [hpend2] using ArrInv.step hscan hinv hcb
            · simp only [hpend2]
              intro x hx
              have hx2 : x ∈ (p0 :: rest).set r p0 :=
                List.Sublist.mem hx (List.drop_sublist 1 _)
              rcases List.mem_or_eq_of_mem_set hx2 with hx3 | rfl
              · exact hb x hx3
              · exact hb x (by simp)
            · intro d hd
              simp only [List.mem_append, List.mem_singleton] at hd
              rcases hd with hd | rfl
              · exact hgood d hd
              · refine ⟨hr, hget, by
                  have h0 := hpre r hr (le_refl r)
                  rw [hget] at h0
                  exact h0, ?_⟩
                intro j hj hjarr
                have hclosed : ∀ k (hk : k < (p0 :: rest).length), k ≤ j →
                    ((p0 :: rest).get ⟨k, hk⟩).arrivalTime ≤ st.serviceTime :=
                  hinv.prefix_arrived hj hjarr
                have h1 : c.burstDuration ≤ ((p0 :: rest).get ⟨j, hj⟩).burstDuration :=
                  hmin j hj hclosed
                refine ⟨h1, fun hjr => hfirst j hj hjr, ?_⟩
                intro ⟨_, hbad⟩
                omega
            · simpa [SJFPDecision.isRun] using hcount
      · exact ⟨hinv, hb, hgood, hcount⟩

/-- C5: in `SJFPrioritySchedule`, at every decision point, among all
not-yet-executed processes whose arrival time is at most the current service
time, a process with the smallest burst duration (first occurrence on ties)
is selected and run to completion, so no process is selected while another
eligible pending process has strictly earlier arrival and strictly smaller
burst; when no pending process has arrived, the service time advances to the
earliest pending arrival time, and such an idle step emits no interval
(every Gantt interval corresponds to a run decision). -/
theorem sjfp_decision_policy (ps : List Process)
    (hb : ∀ p ∈ ps, 0 ≤ p.burstDuration) :
    (∀ d ∈ (SJFPrioritySchedule ps).decisions, SJFPGood d) ∧
    (SJFPrioritySchedule ps).gantt.length =
      (SJFPrioritySchedule ps).decisions.countP SJFPDecision.isRun := by
  have h : SJFPInv (SJFPrioritySchedule ps) := by
    refine sjfpLoop_inv _ _ ⟨?_, ?_, ?_, ?_⟩
    · simpa [initSJFP] using
        ArrInv.of_sorted (sortSlice_sorted Process.arrivalTime ps) 0
    · intro p hp
      refine hb p ?_
      simpa [initSJFP, mem_sortSlice] using hp
    · intro d hd
      simp [initSJFP] at hd
    · simp [initSJFP]
  exact ⟨h.2.2.1, h.2.2.2⟩

/-- C5 witness: the decision-policy theorem applied to the concrete list
`exPreempt`. -/
theorem sjfp_decision_policy_witness :
    (∀ d ∈ (SJFPrioritySchedule exPreempt).decisions, SJFPGood d) ∧
    (SJFPrioritySchedule exPreempt).gantt.length =
      (SJFPrioritySchedule exPreempt).decisions.countP SJFPDecision.isRun :=
  sjfp_decision_policy exPreempt (by decide)

theorem scanRel_some_arrived {t : Int} {l : List Process} {r : Nat} {c : Process}
    (h : scanRel t l = some (r, c)) : c.arrivalTime ≤ t := by
  obtain ⟨hr, hget, hpre, _, _⟩ := scanRel_spec h
  have h0 := hpre r hr (le_refl r)
  rwa [hget] at h0

theorem sjfpLoop_waiting_nonneg (fuel : Nat) (st : SJFPState)
    (hw : 0 ≤ st.waitingTime) (hrows : ∀ r ∈ st.rows, 0 ≤ r.waiting) :
    ∀ r ∈ (sjfpLoop fuel st).rows, 0 ≤ r.waiting := by
  induction fuel generalizing st with
  | zero => simpa [sjfpLoop] using hrows
  | succ fuel ih =>
      rw [sjfpLoop]
      split
      · split
        · exact hrows
        · rename_i hlt p0 rest hpend
          split
          · rename_i hscan
            exact ih _ hw hrows
          · rename_i rp r c hscan
            have harr : c.arrivalTime ≤ st.serviceTime := scanRel_some_arrived hscan
            have hw' : 0 ≤ (if c.arrivalTime > 0
                then st.serviceTime - c.arrivalTime else st.waitingTime) := by
              by_cases h : c.arrivalTime > 0
              · rw [if_pos h]; omega
              · rw [if_neg h]; exact hw
            apply ih
            · exact hw'
            · intro row hrow
              simp only [List.mem_append, List.mem_singleton] at hrow
              rcases hrow with h1 | rfl
              · exact hrows row h1
              · exact hw'
      · exact hrows

theorem rrAdmit_fst_mem (t : Int) (ps queue : List Process) :
    ∀ p ∈ (rrAdmit t ps queue).1, p ∈ ps := by
  induction ps generalizing queue with
  | nil => simp [rrAdmit]
  | cons a as ih =>
      rw [rrAdmit]
      split
      · intro p hp
        exact List.mem_cons_of_mem a (ih _ p hp)
      · intro p hp
        exact hp

theorem rrAdmit_snd_mem (t : Int) (ps queue : List Process) :
    ∀ p ∈ (rrAdmit t ps queue).2, p ∈ ps ∨ p ∈ queue := by
  induction ps generalizing queue with
  | nil => simp [rrAdmit]
  | cons a as ih =>
      rw [rrAdmit]
      split
      · intro p hp
        rcases ih (queue ++ [a]) p hp with h | h
        · exact Or.inl (List.mem_cons_of_mem a h)
        · rcases List.mem_append.mp h with h | h
          · exact Or.inr h
          · rw [List.mem_singleton.mp h]
            exact Or.inl (List.mem_cons_self a as)
      · intro p hp
        exact Or.inr hp

theorem rrAdmit_snd_arrived (t : Int) (ps queue : List Process)
    (h : ∀ p ∈ queue, p.arrivalTime ≤ t) :
    ∀ p ∈ (rrAdmit t ps queue).2, p.arrivalTime ≤ t := by
  induction ps generalizing queue with
  | nil => simpa [rrAdmit] using h
  | cons a as ih =>
      rw [rrAdmit]
      split
      · rename_i ha
        refine ih (queue ++ [a]) ?_
        intro p hp
        rcases List.mem_append.mp hp with hp | hp
        · exact h p hp
        · rw [List.mem_singleton.mp hp]
          exact ha
      · intro p hp
        exact h p hp

theorem rrInner_done (q pid start : Int) (fuel : Nat) (bl : Int)
    (procs queue : List Process) (t comp te : Int) (gantt : List TimeSlice)
    (hpos : ¬bl > 0) :
    rrInner q pid start fuel bl procs queue t comp te gantt =
      ⟨procs, queue, t, comp, te, gantt, true⟩ := by
  cases fuel <;> rw [rrInner.eq_def] <;> simp only [] <;> rw [if_neg hpos]

theorem rrInner_zero (q pid start : Int) (bl : Int)
    (procs queue : List Process) (t comp te : Int) (gantt : List TimeSlice)
    (hpos : bl > 0) :
    rrInner q pid start 0 bl procs queue t comp te gantt =
      ⟨procs, queue, t, comp, te, gantt, false⟩ := by
  rw [rrInner.eq_def]
  simp only []
  rw [if_pos hpos]

theorem rrInner_step (q pid start : Int) (fuel : Nat) (bl : Int)
    (procs queue : List Process) (t comp te : Int) (gantt : List TimeSlice)
    (hpos : bl > 0) :
    rrInner q pid start (fuel + 1) bl procs queue t comp te gantt =
      rrInner q pid start fuel (bl - min bl q) (rrAdmit (t + min bl q) procs queue).1
        (rrAdmit (t + min bl q) procs queue).2 (t + min bl q) (t + min bl q)
        (te + min bl q) (gantt ++ [⟨pid, start, t + min bl q⟩]) := by
  rw [rrInner.eq_def]
  simp only []
  rw [if_pos hpos]

theorem rrInner_ok_time (q pid start : Int) (hq : 1 ≤ q) (fuel : Nat) :
    ∀ (bl : Int) (procs queue : List Process) (t comp te : Int) (gantt : List TimeSlice),
      bl.toNat ≤ fuel →
      (rrInner q pid start fuel bl procs queue t comp te gantt).fuelOK = true ∧
      (rrInner q pid start fuel bl procs queue t comp te gantt).currentTime = t + max bl 0 := by
  induction fuel with
  | zero =>
      intro bl procs queue t comp te gantt hbl
      rw [rrInner_done q pid start 0 bl procs queue t comp te gantt (by omega)]
      refine ⟨rfl, ?_⟩
      show t = t + max bl 0
      omega
  | succ fuel ih =>
      intro bl procs queue t comp te gantt hbl
      by_cases hpos : bl > 0
      · rw [rrInner_step q pid start fuel bl procs queue t comp te gantt hpos]
        have hts : 1 ≤ min bl q := by omega
        have hrec := ih (bl - min bl q) (rrAdmit (t + min bl q) procs queue).1
          (rrAdmit (t + min bl q) procs queue).2 (t + min bl q) (t + min bl q)
          (te + min bl q) (gantt ++ [⟨pid, start, t + min bl q⟩]) (by omega)
        refine ⟨hrec.1, ?_⟩
        rw [hrec.2]
        omega
      · rw [rrInner_done q pid start (fuel + 1) bl procs queue t comp te gantt hpos]
        refine ⟨rfl, ?_⟩
        show t = t + max bl 0
        omega

theorem rrInner_queue_arrived (q pid start : Int) (hq : 1 ≤ q) (fuel : Nat) :
    ∀ (bl : Int) (procs queue : List Process) (t comp te : Int) (gantt : List TimeSlice),
      (∀ p ∈ queue, p.arrivalTime ≤ t) →
      (∀ p ∈ (rrInner q pid start fuel bl procs queue t comp te gantt).queue,
        p.arrivalTime ≤ (rrInner q pid start fuel bl procs queue t comp te gantt).currentTime) ∧
      t ≤ (rrInner q pid start fuel bl procs queue t comp te gantt).currentTime := by
  induction fuel with
  | zero =>
      intro bl procs queue t comp te gantt hqu
      by_cases hpos : bl > 0
      · rw [rrInner_zero q pid start bl procs queue t comp te gantt hpos]
        exact ⟨hqu, le_refl t⟩
      · rw [rrInner_done q pid start 0 bl procs queue t comp te gantt hpos]
        exact ⟨hqu, le_refl t⟩
  | succ fuel ih =>
      intro bl procs queue t comp te gantt hqu
      by_cases hpos : bl > 0
      · rw [rrInner_step q pid start fuel bl procs queue t comp te gantt hpos]
        have hts : 1 ≤ min bl q := by omega
        have hq2 : ∀ p ∈ (rrAdmit (t + min bl q) procs queue).2,
            p.arrivalTime ≤ t + min bl q := by
          refine rrAdmit_snd_arrived _ _ _ ?_
          intro p hp
          have := hqu p hp
          omega
        have hrec := ih (bl - min bl q) (rrAdmit (t + min bl q) procs queue).1
          (rrAdmit (t + min bl q) procs queue).2 (t + min bl q) (t + min bl q)
          (te + min bl q) (gantt ++ [⟨pid, start, t + min bl q⟩]) hq2
        exact ⟨hrec.1, by omega⟩
      · rw [rrInner_done q pid start (fuel + 1) bl procs queue t comp te gantt hpos]
        exact ⟨hqu, le_refl t⟩

theorem rrInner_mem (q pid start : Int) (fuel : Nat) :
    ∀ (bl : Int) (procs queue : List Process) (t comp te : Int) (gantt : List TimeSlice),
      (∀ p ∈ (rrInner q pid start fuel bl procs queue t comp te gantt).procs, p ∈ procs) ∧
      (∀ p ∈ (rrInner q pid start fuel bl procs queue t comp te gantt).queue,
        p ∈ procs ∨ p ∈ queue) := by
  induction fuel with
  | zero =>
      intro bl procs queue t comp te gantt
      by_cases hpos : bl > 0
      · rw [rrInner_zero q pid start bl procs queue t comp te gantt hpos]
        exact ⟨fun p hp => hp, fun p hp => Or.inr hp⟩
      · rw [rrInner_done q pid start 0 bl procs queue t comp te gantt hpos]
        exact ⟨fun p hp => hp, fun p hp => Or.inr hp⟩
  | succ fuel ih =>
      intro bl procs queue t comp te gantt
      by_cases hpos : bl > 0
      · rw [rrInner_step q pid start fuel bl procs queue t comp te gantt hpos]
        have hrec := ih (bl - min bl q) (rrAdmit (t + min bl q) procs queue).1
          (rrAdmit (t + min bl q) procs queue).2 (t + min bl q) (t + min bl q)
          (te + min bl q) (gantt ++ [⟨pid, start, t + min bl q⟩])
        constructor
        · intro p hp
          exact rrAdmit_fst_mem _ _ _ p (hrec.1 p hp)
        · intro p hp
          rcases hrec.2 p hp with h | h
          · exact Or.inl (rrAdmit_fst_mem _ _ _ p h)
          · exact rrAdmit_snd_mem _ _ _ p h
      · rw [rrInner_done q pid start (fuel + 1) bl procs queue t comp te gantt hpos]
        exact ⟨fun p hp => hp, fun p hp => Or.inr hp⟩

theorem rrLoop_zero (q : Int) (st : RRState) :
    rrLoop q 0 st =
      if st.queue = [] ∧ st.procs = [] then st else { st with exit := .fuelOut } := by
  rw [rrLoop.eq_def]

theorem rrLoop_succ_done (q : Int) (fuel : Nat) (st : RRState)
    (h : st.queue = [] ∧ st.procs = []) : rrLoop q (fuel + 1) st = st := by
  rw [rrLoop.eq_def]
  simp only []
  rw [if_pos h]

theorem rrLoop_succ_idlePanic (q : Int) (fuel : Nat) (st : RRState)
    (h : ¬(st.queue = [] ∧ st.procs = []))
    (hq2 : (rrAdmit st.currentTime st.procs st.queue).2 = []) :
    rrLoop q (fuel + 1) st =
      { st with procs := (rrAdmit st.currentTime st.procs st.queue).1,
                currentTime :=
                  match (rrAdmit st.currentTime st.procs st.queue).1 with
                  | p :: _ => p.arrivalTime
                  | [] => st.currentTime,
                exit := .queueIndexPanic } := by
  rw [rrLoop.eq_def]
  simp only []
  rw [if_neg h, hq2]

theorem rrLoop_succ_dispatch (q : Int) (fuel : Nat) (st : RRState) (p : Process)
    (queue2 : List Process)
    (h : ¬(st.queue = [] ∧ st.procs = []))
    (hq2 : (rrAdmit st.currentTime st.procs st.queue).2 = p :: queue2) :
    rrLoop q (fuel + 1) st =
      (let inner := rrInner q p.processID st.currentTime p.burstDuration.toNat
          p.burstDuration (rrAdmit st.currentTime st.procs st.queue).1 queue2
          st.currentTime 0 0 st.gantt
       if inner.fuelOK then
         let waitingTime := inner.currentTime - p.arrivalTime - p.burstDuration
         let turnaround := waitingTime + p.burstDuration + inner.timeElapsed
         let row : Row := ⟨p.processID, p.priority, p.burstDuration, p.arrivalTime,
                           waitingTime, turnaround, inner.completion⟩
         let idx := p.processID - 1
         if 0 ≤ idx ∧ idx.toNat < st.sched.length then
           rrLoop q fuel
             { procs := inner.procs
               queue := inner.queue
               currentTime := inner.currentTime
               totalWait := st.totalWait + waitingTime
               totalTurnaround := st.totalTurnaround + turnaround
               sched := st.sched.set idx.toNat (some row)
               writes := st.writes ++ [(idx.toNat, row)]
               gantt := inner.gantt
               exit := st.exit }
         else
           { st with procs := inner.procs, queue := inner.queue,
                     currentTime := inner.currentTime,
                     totalWait := st.totalWait + waitingTime,
                     totalTurnaround := st.totalTurnaround + turnaround,
                     gantt := inner.gantt,
                     exit := .scheduleIndexPanic p.processID }
       else
         { st with procs := inner.procs, queue := inner.queue,
                   currentTime := inner.currentTime, gantt := inner.gantt,
                   exit := .fuelOut }) := by
  rw [rrLoop.eq_def]
  simp only []
  rw [if_neg h, hq2]

theorem rrLoop_waiting_nonneg (q : Int) (hq : 1 ≤ q) (fuel : Nat) :
    ∀ st : RRState,
      (∀ p ∈ st.queue, p.arrivalTime ≤ st.currentTime) →
      (∀ w ∈ st.writes, 0 ≤ w.2.waiting) →
      ∀ w ∈ (rrLoop q fuel st).writes, 0 ≤ w.2.waiting := by
  induction fuel with
  | zero =>
      intro st hqu hw
      rw [rrLoop_zero]
      split
      · exact hw
      · exact hw
  | succ fuel ih =>
      intro st hqu hw
      by_cases hdone : st.queue = [] ∧ st.procs = []
      · rw [rrLoop_succ_done q fuel st hdone]
        exact hw
      · cases hq2 : (rrAdmit st.currentTime st.procs st.queue).2 with
        | nil =>
            rw [rrLoop_succ_idlePanic q fuel st hdone hq2]
            exact hw
        | cons p queue2 =>
            rw [rrLoop_succ_dispatch q fuel st p queue2 hdone hq2]
            have hpq : ∀ x ∈ p :: queue2, x.arrivalTime ≤ st.currentTime := by
              rw [← hq2]
              exact rrAdmit_snd_arrived _ _ _ hqu
            have hparr : p.arrivalTime ≤ st.currentTime := hpq p (List.mem_cons_self _ _)
            have hq2arr : ∀ x ∈ queue2, x.arrivalTime ≤ st.currentTime :=
              fun x hx => hpq x (List.mem_cons_of_mem _ hx)
            have htime := rrInner_ok_time q p.processID st.currentTime hq
              p.burstDuration.toNat p.burstDuration
              (rrAdmit st.currentTime st.procs st.queue).1 queue2
              st.currentTime 0 0 st.gantt (le_refl _)
            have hqOut := rrInner_queue_arrived q p.processID st.currentTime hq
              p.burstDuration.toNat p.burstDuration
              (rrAdmit st.currentTime st.procs st.queue).1 queue2
              st.currentTime 0 0 st.gantt hq2arr
            simp only [htime.1, if_true]
            have hwait : 0 ≤ (rrInner q p.processID st.currentTime p.burstDuration.toNat
                p.burstDuration (rrAdmit st.currentTime st.procs st.queue).1 queue2
                st.currentTime 0 0 st.gantt).currentTime - p.arrivalTime - p.burstDuration := by
              rw [htime.2]
              omega
            split
            · refine ih _ hqOut.1 ?_
              intro w hwmem
              rcases List.mem_append.mp hwmem with h1 | h1
              · exact hw w h1
              · rw [List.mem_singleton.mp h1]
                exact hwait
            · exact hw

theorem rrLoop_writes_inbounds (q : Int) (N : Nat) (fuel : Nat) :
    ∀ st : RRState,
      (∀ p ∈ st.procs, 1 ≤ p.processID ∧ p.processID ≤ N) →
      (∀ p ∈ st.queue, 1 ≤ p.processID ∧ p.processID ≤ N) →
      st.sched.length = N →
      (∀ pid, st.exit ≠ RRExit.scheduleIndexPanic pid) →
      (∀ w ∈ st.writes, (w.1 : Int) = w.2.id - 1 ∧ w.1 < N) →
      (∀ pid, (rrLoop q fuel st).exit ≠ RRExit.scheduleIndexPanic pid) ∧
      (∀ w ∈ (rrLoop q fuel st).writes, (w.1 : Int) = w.2.id - 1 ∧ w.1 < N) := by
  induction fuel with
  | zero =>
      intro st hp hqu hsched hexit hw
      rw [rrLoop_zero]
      split
      · exact ⟨hexit, hw⟩
      · exact ⟨fun pid h => RRExit.noConfusion h, hw⟩
  | succ fuel ih =>
      intro st hp hqu hsched hexit hw
      by_cases hdone : st.queue = [] ∧ st.procs = []
      · rw [rrLoop_succ_done q fuel st hdone]
        exact ⟨hexit, hw⟩
      · cases hq2 : (rrAdmit st.currentTime st.procs st.queue).2 with
        | nil =>
            rw [rrLoop_succ_idlePanic q fuel st hdone hq2]
            exact ⟨fun pid h => RRExit.noConfusion h, hw⟩
        | cons p queue2 =>
            rw [rrLoop_succ_dispatch q fuel st p queue2 hdone hq2]
            have hpmem : p ∈ st.procs ∨ p ∈ st.queue := by
              have hmem : p ∈ (rrAdmit st.currentTime st.procs st.queue).2 := by
                rw [hq2]
                exact List.mem_cons_self _ _
              exact rrAdmit_snd_mem st.currentTime st.procs st.queue p hmem
            have hpid : 1 ≤ p.processID ∧ p.processID ≤ N := by
              rcases hpmem with h | h
              · exact hp p h
              · exact hqu p h
            have hmems := rrInner_mem q p.processID st.currentTime p.burstDuration.toNat
              p.burstDuration (rrAdmit st.currentTime st.procs st.queue).1 queue2
              st.currentTime 0 0 st.gantt
            have hprocsIn : ∀ x ∈ (rrAdmit st.currentTime st.procs st.queue).1,
                1 ≤ x.processID ∧ x.processID ≤ N :=
              fun x hx => hp x (rrAdmit_fst_mem _ _ _ x hx)
            have hqueue2In : ∀ x ∈ queue2, 1 ≤ x.processID ∧ x.processID ≤ N := by
              intro x hx
              have hx2 : x ∈ (rrAdmit st.currentTime st.procs st.queue).2 := by
                rw [hq2]
                exact List.mem_cons_of_mem _ hx
              rcases rrAdmit_snd_mem _ _ _ x hx2 with h | h
              · exact hp x h
              · exact hqu x h
            cases hOK : (rrInner q p.processID st.currentTime p.burstDuration.toNat
                p.burstDuration (rrAdmit st.currentTime st.procs st.queue).1 queue2
                st.currentTime 0 0 st.gantt).fuelOK with
            | false =>
                simp only [hOK, Bool.false_eq_true, if_false]
                exact ⟨fun pid h => RRExit.noConfusion h, hw⟩
            | true =>
                simp only [hOK, if_true]
                have hbound : 0 ≤ p.processID - 1 ∧
                    (p.processID - 1).toNat < st.sched.length := by
                  rw [hsched]
                  omega
                rw [if_pos hbound]
                refine ih _ ?_ ?_ ?_ ?_ ?_
                · intro x hx
                  exact hprocsIn x (hmems.1 x hx)
                · intro x hx
                  rcases hmems.2 x hx with h | h
                  · exact hprocsIn x h
                  · exact hqueue2In x h
                · simpa using hsched
                · exact hexit
                · intro w hwmem
                  rcases List.mem_append.mp hwmem with h1 | h1
                  · exact hw w h1
                  · rw [List.mem_singleton.mp h1]
                    refine ⟨?_, ?_⟩
                    · show ((p.processID - 1).toNat : Int) = p.processID - 1
                      omega
                    · show (p.processID - 1).toNat < N
                      omega

/-- C7 amended: `SJFPrioritySchedule` (for every list) and `RRSchedule`
(for quantum ≥ 1, for every list) only emit rows with non-negative waiting
time; `FCFSSchedule` and `SJFSchedule` compute the waiting time as
`serviceTime - arrivalTime` with no `max(0, ·)` clamp, so their rows have
non-negative waiting times provided each process's arrival time is at most
the total burst of the processes serviced before it (and can be negative
otherwise, see the counterexample). -/
theorem waiting_nonnegativity_amended :
    (∀ ps : List Process,
        (∀ i (hi : i < ps.length), (ps.get ⟨i, hi⟩).arrivalTime ≤ burstSum (ps.take i)) →
        ∀ r ∈ (FCFSSchedule ps).rows, 0 ≤ r.waiting) ∧
    (∀ ps : List Process,
        (∀ i (hi : i < (sortSlice Process.burstDuration ps).length),
            ((sortSlice Process.burstDuration ps).get ⟨i, hi⟩).arrivalTime ≤
              burstSum ((sortSlice Process.burstDuration ps).take i)) →
        ∀ r ∈ (SJFSchedule ps).rows, 0 ≤ r.waiting) ∧
    (∀ ps : List Process, ∀ r ∈ (SJFPrioritySchedule ps).rows, 0 ≤ r.waiting) ∧
    (∀ (ps : List Process) (q : Int), 1 ≤ q →
        ∀ w ∈ (RRSchedule ps q).writes, 0 ≤ w.2.waiting) := by
  refine ⟨?_, ?_, ?_, ?_⟩
  · intro ps harr
    refine fcfs_rows_nonneg_aux ps initAccounting ?_ (by simp [initAccounting])
      (by simp [initAccounting])
    simpa [initAccounting] using harr
  · intro ps harr
    refine fcfs_rows_nonneg_aux (sortSlice Process.burstDuration ps) initAccounting ?_
      (by simp [initAccounting]) (by simp [initAccounting])
    simpa [initAccounting] using harr
  · intro ps
    refine sjfpLoop_waiting_nonneg _ _ ?_ ?_
    · simp [initSJFP]
    · simp [initSJFP]
  · intro ps q hq
    have h := rrLoop_waiting_nonneg q hq (ps.length + 1) (initRR ps)
      (by simp [initRR]) (by simp [initRR])
    rw [RRSchedule]
    split
    · exact h
    · exact h

/-- C7 witness: the amended non-negativity theorem applied at concrete
inputs; `exTurnaround` satisfies the no-idle-gap hypothesis of the FCFS/SJF
conjuncts. -/
theorem waiting_nonnegativity_amended_witness :
    (∀ r ∈ (FCFSSchedule exTurnaround).rows, 0 ≤ r.waiting) ∧
    (∀ r ∈ (SJFSchedule exTurnaround).rows, 0 ≤ r.waiting) ∧
    (∀ r ∈ (SJFPrioritySchedule exTurnaround).rows, 0 ≤ r.waiting) ∧
    (∀ w ∈ (RRSchedule exTurnaround 1).writes, 0 ≤ w.2.waiting) :=
  ⟨waiting_nonnegativity_amended.1 exTurnaround (by decide),
   waiting_nonnegativity_amended.2.1 exTurnaround (by decide),
   waiting_nonnegativity_amended.2.2.1 exTurnaround,
   waiting_nonnegativity_amended.2.2.2 exTurnaround 1 (by decide)⟩

/-- C10: `RRSchedule` stores each result row at position `ProcessID - 1` of
the length-`n` schedule table.  For every input whose ids are exactly the
dense unique range 1..n, every write is in bounds and lands at index
`id - 1` (the out-of-range branch is never taken); and on `exBadID`, whose
only id 5 lies outside 1..1, the write is out of bounds and the embedding's
panic branch is reached. -/
theorem rr_schedule_indexing :
    (∀ (ps : List Process) (q : Int),
        (ps.map Process.processID).Perm
          ((List.range ps.length).map fun (n : Nat) => (n : Int) + 1) →
        (∀ pid, (RRSchedule ps q).exit ≠ RRExit.scheduleIndexPanic pid) ∧
        ∀ w ∈ (RRSchedule ps q).writes, (w.1 : Int) = w.2.id - 1 ∧ w.1 < ps.length) ∧
    (RRSchedule exBadID 1).exit = RRExit.scheduleIndexPanic 5 := by
  constructor
  · intro ps q hperm
    have hids : ∀ p ∈ ps, 1 ≤ p.processID ∧ p.processID ≤ (ps.length : Int) := by
      intro p hp
      have h1 : p.processID ∈ ps.map Process.processID := List.mem_map_of_mem _ hp
      have h2 := hperm.mem_iff.mp h1
      simp only [List.mem_map, List.mem_range] at h2
      obtain ⟨n, hn, hEq⟩ := h2
      omega
    have h := rrLoop_writes_inbounds q ps.length (ps.length + 1) (initRR ps) ?_ ?_ ?_ ?_ ?_
    · rw [RRSchedule]
      split
      · exact ⟨fun pid hc => RRExit.noConfusion hc, h.2⟩
      · exact h
    · intro p hp
      exact hids p (mem_sortSlice.mp hp)
    · simp [initRR]
    · simp [initRR]
    · intro pid hc
      exact RRExit.noConfusion hc
    · simp [initRR]
  · decide

/-- C10 witness: the indexing theorem applied to a list whose single id is
exactly the dense range 1..1. -/
theorem rr_schedule_indexing_witness :
    (∀ pid, (RRSchedule exTurnaround 1).exit ≠ RRExit.scheduleIndexPanic pid) ∧
    ∀ w ∈ (RRSchedule exTurnaround 1).writes,
      (w.1 : Int) = w.2.id - 1 ∧ w.1 < exTurnaround.length :=
  rr_schedule_indexing.1 exTurnaround 1 (by decide)

theorem fcfs_rows_burst_aux (ps : List Process) (s : Accounting) :
    ((ps.foldl fcfsStep s).rows).map Row.burst =
      s.rows.map Row.burst ++ ps.map Process.burstDuration := by
  induction ps generalizing s with
  | nil => simp
  | cons p ps ih =>
      simp only [List.foldl_cons, List.map_cons]
      rw [ih]
      simp [fcfsStep]

/-- sjf_service_order_sorted: the rows of `SJFSchedule` are emitted in
non-decreasing burst order, for every process list and every tie order the
in-place sort may choose.  (How `sort.Slice` orders equal bursts is stdlib
behavior: stable insertion sort only for short ranges.) -/
theorem sjf_service_order_sorted (ps : List Process) :
    ((SJFSchedule ps).rows.map Row.burst).Pairwise (· ≤ ·) := by
  have h := fcfs_rows_burst_aux (sortSlice Process.burstDuration ps) initAccounting
  rw [SJFSchedule, h]
  simp only [initAccounting, List.map_nil, List.nil_append]
  rw [List.pairwise_map]
  exact sortSlice_sorted Process.burstDuration ps

end ProcessScheduler
